import Mathlib

/-!
Shallow embedding, over exact real arithmetic, of the full spectral
trajectory integrator of this repository:

* `src/fullsim/greybody.py`   — species catalog and greybody factor `chi_s_y`;
* `src/fullsim/ft_model.py`   — spectral integral `_I_species`, `I_of_T`, `F_of_T`;
* `src/fullsim/evap_fullsim.py` — `T_H`, `evolve_trajectory`, `generate_trajectory`.

Floating-point numbers of the source are modelled as real numbers.  The
`np.isfinite(dt)` test of the source is always true in this model (a real
number is finite), so the corresponding break condition reduces to `dt <= 0`.
The `while` loop of `evolve_trajectory` appends one record per iteration and
stops as soon as the history length reaches `n_steps`, hence it performs at
most `n_steps` iterations; it is embedded as a fuel recursion with fuel
`n_steps`, which is shown never to be exhausted before a stop condition fires.
The history is accumulated newest-first (`cons`) and reversed at the end,
which yields exactly the chronological arrays of the source.
-/

noncomputable section

open Classical

/-- Particle species record, from `greybody.py` (`@dataclass class Species`). -/
structure Species where
  name : String
  g : ℕ
  mass_eV : ℝ
  spin : ℝ
  fermion : Bool

/-- Boltzmann constant in eV/K, from `greybody.py`. -/
def k_B_eV_per_K : ℝ := 8.617333262e-5

/-- The six catalog entries of `greybody.py` (`species_set`). -/
def photonS : Species := ⟨"photon", 2, 0.0, 1.0, false⟩

def gravitonS : Species := ⟨"graviton", 2, 0.0, 2.0, false⟩

def neutrinoS : Species := ⟨"neutrino", 6, 0.1, 0.5, true⟩

def electronS : Species := ⟨"e_pm", 4, 5.11e5, 0.5, true⟩

def muonS : Species := ⟨"mu_pm", 4, 1.057e8, 0.5, true⟩

def pionS : Species := ⟨"pi", 3, 1.396e8, 0.0, false⟩

/-- The ordered particle catalog `species_set` of `greybody.py`. -/
def species_set : List Species := [photonS, gravitonS, neutrinoS, electronS, muonS, pionS]

/-- Spin-dependent greybody factor `chi_s_y(y, s)` of `greybody.py`.
The float exponents 2.0/4.0/6.0 of the source act on `y ≥ 0` exactly as the
natural powers used here. -/
def chi_s_y (y : ℝ) (s : ℝ) : ℝ :=
  if |s| < 1e-9 then
    4 * Real.pi + (27 * Real.pi / 4 - 4 * Real.pi) * (y ^ 2 / (1 + y ^ 2))
  else if |s - 0.5| < 1e-9 then 27 * Real.pi / 4 * (y ^ 2 / (1 + y ^ 2))
  else if |s - 1| < 1e-9 then 27 * Real.pi / 4 * (y ^ 4 / (1 + y ^ 4))
  else if |s - 2| < 1e-9 then 27 * Real.pi / 4 * (y ^ 6 / (1 + y ^ 6))
  else 27 * Real.pi / 4 * (y ^ 2 / (1 + y ^ 2))

/-- Dimensionless mass threshold `mu` of `_I_species` in `ft_model.py`. -/
def mu_of (spec : Species) (T : ℝ) : ℝ :=
  if spec.mass_eV ≤ 0 then 0 else spec.mass_eV / (k_B_eV_per_K * T)

/-- Lower integration bound `x_min = max(mu, 1e-6)` of `_I_species`. -/
def xminOf (spec : Species) (T : ℝ) : ℝ := max (mu_of spec T) 1e-6

/-- Upper integration bound `x_max = max(mu + 40, 40)` of `_I_species`. -/
def xmaxOf (spec : Species) (T : ℝ) : ℝ := max (mu_of spec T + 40) 40

/-- Grid point `i` of `np.linspace(x_min, x_max, n)` in `_I_species`. -/
def gridPt (spec : Species) (T : ℝ) (n : ℕ) (i : ℕ) : ℝ :=
  xminOf spec T + i * ((xmaxOf spec T - xminOf spec T) / ((n : ℝ) - 1))

/-- Occupation denominator of `_I_species`: `e^x + 1` for fermions; for bosons
`e^x - 1`, with entries `≤ 0` replaced by `e^x` (the elementwise safeguard
`den[den <= 0] = np.exp(xs[den <= 0])`). -/
def denom (fermion : Bool) (x : ℝ) : ℝ :=
  if fermion then Real.exp x + 1
  else if Real.exp x - 1 ≤ 0 then Real.exp x else Real.exp x - 1

/-- Integrand `x^3 * chi_s(x/(4*pi)) / den` of `_I_species` at grid point `i`. -/
def integrandAt (spec : Species) (T : ℝ) (n : ℕ) (i : ℕ) : ℝ :=
  (gridPt spec T n i) ^ 3 * chi_s_y (gridPt spec T n i / (4 * Real.pi)) spec.spin /
    denom spec.fermion (gridPt spec T n i)

/-- Single-species contribution `_I_species(T, spec, n_x)` of `ft_model.py`:
`g` times the trapezoidal quadrature `np.trapz(integrand, xs)`. -/
def I_species (T : ℝ) (spec : Species) (n : ℕ) : ℝ :=
  (spec.g : ℝ) *
    ∑ i ∈ Finset.range (n - 1),
      (gridPt spec T n (i + 1) - gridPt spec T n i) *
        (integrandAt spec T n i + integrandAt spec T n (i + 1)) / 2

/-- Total spectral integral `I_of_T(T, n_x)` of `ft_model.py`. -/
def I_of_T (T : ℝ) (n : ℕ) : ℝ :=
  (species_set.map (fun spec => I_species T spec n)).sum

/-- Effective spectral efficiency `F_of_T(T, n_x) = I_of_T(T, n_x)`. -/
def F_of_T (T : ℝ) (n : ℕ) : ℝ := I_of_T T n

/-- Toy Hawking temperature `T_H(M, T0, M0) = T0 * (M0 / M)` of `evap_fullsim.py`. -/
def T_H (M : ℝ) (T0 : ℝ) (M0 : ℝ) : ℝ := T0 * (M0 / M)

/-- One recorded sample of the trajectory: the source's five parallel lists
`t_list, M_list, T_list, S_bh_list, S_rad_list` at a common index. -/
structure TrajPoint where
  t : ℝ
  M : ℝ
  T : ℝ
  S_bh : ℝ
  S_rad : ℝ

/-- The step-0 record of `evolve_trajectory`. -/
def initPoint (M0 T0 : ℝ) : TrajPoint :=
  ⟨0, M0, T_H M0 T0 M0, 4 * Real.pi * M0 ^ 2 / Real.log 2, 0⟩

/-- Initial one-element history of `evolve_trajectory`. -/
def initHist (M0 T0 : ℝ) : List TrajPoint := [initPoint M0 T0]

/-- `dMdt = -F / (M**2 + 1e-30)` at the current mass, from `evolve_trajectory`. -/
def dMdtOf (Ffun : ℝ → ℝ) (M0 T0 M : ℝ) : ℝ :=
  -Ffun (T_H M T0 M0) / (M ^ 2 + 1e-30)

/-- Adaptive step `dt = 1e-3 * abs(M / (dMdt + 1e-30))` of `evolve_trajectory`. -/
def dtOf (Ffun : ℝ → ℝ) (M0 T0 M : ℝ) : ℝ :=
  1e-3 * |M / (dMdtOf Ffun M0 T0 M + 1e-30)|

/-- One Euler step of `evolve_trajectory`: mass floor, entropy complement. -/
def stepOf (Ffun : ℝ → ℝ) (M0 T0 : ℝ) (r : TrajPoint) : TrajPoint :=
  let dMdt := dMdtOf Ffun M0 T0 r.M
  let dt := dtOf Ffun M0 T0 r.M
  let M_new := max (r.M + dMdt * dt) (1e-6 * M0)
  let S_bh_new := 4 * Real.pi * M_new ^ 2 / Real.log 2
  ⟨r.t + dt, M_new, T_H M_new T0 M0, S_bh_new, r.S_rad - (S_bh_new - r.S_bh)⟩

/-- The `while` loop of `evolve_trajectory`, history kept newest-first.
Stop conditions, in source order: the `while` guard `M > 1e-4 * M0`; the break
on a degenerate step (`dt ≤ 0`; non-finiteness cannot occur over ℝ); the break
on `len(t_list) >= n_steps` after appending.  The fuel argument only bounds
the recursion; with fuel `n_steps` it is never exhausted before a stop. -/
def evolveLoop (Ffun : ℝ → ℝ) (M0 T0 : ℝ) (nsteps : ℕ) : ℕ → List TrajPoint → List TrajPoint
  | 0, hist => hist
  | fuel + 1, hist =>
    match hist with
    | [] => []
    | r :: rest =>
      if 1e-4 * M0 < r.M then
        if dtOf Ffun M0 T0 r.M ≤ 0 then r :: rest
        else
          let hist2 := stepOf Ffun M0 T0 r :: r :: rest
          if nsteps ≤ hist2.length then hist2
          else evolveLoop Ffun M0 T0 nsteps fuel hist2
      else r :: rest

/-- The spectral efficiency actually used by `evolve_trajectory`:
`F_of_T` at its default resolution `n_x = 600`. -/
def fullF : ℝ → ℝ := fun T => F_of_T T 600

/-- Raw loop output (newest record first) for an arbitrary efficiency function. -/
def runRevG (Ffun : ℝ → ℝ) (M0 T0 : ℝ) (nsteps : ℕ) : List TrajPoint :=
  evolveLoop Ffun M0 T0 nsteps nsteps (initHist M0 T0)

/-- Chronological history for an arbitrary efficiency function. -/
def trajHistG (Ffun : ℝ → ℝ) (M0 T0 : ℝ) (nsteps : ℕ) : List TrajPoint :=
  (runRevG Ffun M0 T0 nsteps).reverse

/-- Raw loop output of `evolve_trajectory` (newest record first). -/
def runRev (M0 T0 : ℝ) (nsteps : ℕ) : List TrajPoint := runRevG fullF M0 T0 nsteps

/-- Chronological history of `evolve_trajectory`. -/
def trajHist (M0 T0 : ℝ) (nsteps : ℕ) : List TrajPoint := (runRev M0 T0 nsteps).reverse

/-- `t_evap = t_arr[-1]`: the last recorded raw time. -/
def t_evapOf (M0 T0 : ℝ) (nsteps : ℕ) : ℝ :=
  ((runRev M0 T0 nsteps).head?).elim 0 TrajPoint.t

/-- `tau = t_arr / t_evap`. -/
def tauList (M0 T0 : ℝ) (nsteps : ℕ) : List ℝ :=
  (trajHist M0 T0 nsteps).map (fun r => r.t / t_evapOf M0 T0 nsteps)

/-- `M_over_M0 = M_arr / M0`. -/
def MnormList (M0 T0 : ℝ) (nsteps : ℕ) : List ℝ :=
  (trajHist M0 T0 nsteps).map (fun r => r.M / M0)

/-- `T_over_T0 = T_arr / T0`. -/
def TnormList (M0 T0 : ℝ) (nsteps : ℕ) : List ℝ :=
  (trajHist M0 T0 nsteps).map (fun r => r.T / T0)

/-- `S_bits = S_bh_arr`. -/
def SbitsList (M0 T0 : ℝ) (nsteps : ℕ) : List ℝ :=
  (trajHist M0 T0 nsteps).map TrajPoint.S_bh

/-- `bits_emitted = S_rad_arr`. -/
def bitsEmittedList (M0 T0 : ℝ) (nsteps : ℕ) : List ℝ :=
  (trajHist M0 T0 nsteps).map TrajPoint.S_rad

/-- `diff = np.abs(S_bh_arr - S_rad_arr)`. -/
def diffList (M0 T0 : ℝ) (nsteps : ℕ) : List ℝ :=
  (trajHist M0 T0 nsteps).map (fun r => |r.S_bh - r.S_rad|)

/-- Accumulator form of `np.argmin`: scan positions `i, i+1, ...` of the
remaining list, keeping the first strict improvement over the best value. -/
def argminGo : List ℝ → ℝ → ℕ → ℕ → ℕ
  | [], _, _, best => best
  | v :: rest, bv, i, best =>
    if v < bv then argminGo rest v (i + 1) i else argminGo rest bv (i + 1) best

/-- `np.argmin` over a list: index of the first occurrence of the minimum. -/
def argminL : List ℝ → ℕ
  | [] => 0
  | v :: rest => argminGo rest v 1 0

/-- `idx_page = int(np.argmin(diff))`. -/
def idxPage (M0 T0 : ℝ) (nsteps : ℕ) : ℕ := argminL (diffList M0 T0 nsteps)

/-- `tau_page = tau_arr[idx_page]`. -/
def tauPage (M0 T0 : ℝ) (nsteps : ℕ) : ℝ :=
  (tauList M0 T0 nsteps).getD (idxPage M0 T0 nsteps) 0

/-- `M_page_over_M0 = M_norm[idx_page]`. -/
def MPage (M0 T0 : ℝ) (nsteps : ℕ) : ℝ :=
  (MnormList M0 T0 nsteps).getD (idxPage M0 T0 nsteps) 0

/-- Header row written by `generate_trajectory`. -/
def exportHeader : List String := ["tau", "M_over_M0", "T_over_T0", "S_bits", "bits_emitted"]

/-- Exact value denoted by the formatted cell `f"{x:.8e}"`: scientific notation
with 8 digits after the decimal point, i.e. the mantissa `x / 10^floor(log10 |x|)`
rounded to 8 decimal digits and scaled back. -/
def sciRound8 (x : ℝ) : ℝ :=
  if x = 0 then 0
  else
    ((round (x / (10 : ℝ) ^ (⌊Real.logb 10 |x|⌋) * 10 ^ 8) : ℤ) : ℝ) / 10 ^ 8 *
      (10 : ℝ) ^ (⌊Real.logb 10 |x|⌋)

/-- Data row `i` written by `generate_trajectory`. -/
def exportRow (M0 T0 : ℝ) (nsteps : ℕ) (i : ℕ) : List ℝ :=
  [sciRound8 ((tauList M0 T0 nsteps).getD i 0),
   sciRound8 ((MnormList M0 T0 nsteps).getD i 0),
   sciRound8 ((TnormList M0 T0 nsteps).getD i 0),
   sciRound8 ((SbitsList M0 T0 nsteps).getD i 0),
   sciRound8 ((bitsEmittedList M0 T0 nsteps).getD i 0)]

/-- All data rows written by `generate_trajectory` (`for i in range(len(tau))`). -/
def exportRows (M0 T0 : ℝ) (nsteps : ℕ) : List (List ℝ) :=
  (List.range (tauList M0 T0 nsteps).length).map (exportRow M0 T0 nsteps)

/-- Per-step lower factor used in the analysis of the default run. -/
def stepLB : ℝ := 1 - 1.0001e-3

/-! ## Basic loop lemmas -/

lemma evolveLoop_zero (Ffun : ℝ → ℝ) (M0 T0 : ℝ) (nsteps : ℕ) (hist : List TrajPoint) :
    evolveLoop Ffun M0 T0 nsteps 0 hist = hist := rfl

lemma evolveLoop_succ_cons (Ffun : ℝ → ℝ) (M0 T0 : ℝ) (nsteps fuel : ℕ)
    (r : TrajPoint) (rest : List TrajPoint) :
    evolveLoop Ffun M0 T0 nsteps (fuel + 1) (r :: rest) =
      if 1e-4 * M0 < r.M then
        if dtOf Ffun M0 T0 r.M ≤ 0 then r :: rest
        else
          if nsteps ≤ (stepOf Ffun M0 T0 r :: r :: rest).length then
            stepOf Ffun M0 T0 r :: r :: rest
          else evolveLoop Ffun M0 T0 nsteps fuel (stepOf Ffun M0 T0 r :: r :: rest)
      else r :: rest := rfl

lemma evolveLoop_suffix (Ffun : ℝ → ℝ) (M0 T0 : ℝ) (nsteps : ℕ) :
    ∀ fuel hist, ∃ pre, evolveLoop Ffun M0 T0 nsteps fuel hist = pre ++ hist := by
  intro fuel
  induction fuel with
  | zero => intro hist; exact ⟨[], rfl⟩
  | succ n ih =>
    intro hist
    match hist with
    | [] => exact ⟨[], rfl⟩
    | r :: rest =>
      rw [evolveLoop_succ_cons]
      split_ifs with h1 h2 h3
      · exact ⟨[], rfl⟩
      · exact ⟨[stepOf Ffun M0 T0 r], rfl⟩
      · obtain ⟨pre, hpre⟩ := ih (stepOf Ffun M0 T0 r :: r :: rest)
        exact ⟨pre ++ [stepOf Ffun M0 T0 r], by simpa using hpre⟩
      · exact ⟨[], rfl⟩

lemma evolveLoop_cons (Ffun : ℝ → ℝ) (M0 T0 : ℝ) (nsteps : ℕ) (fuel : ℕ)
    (r : TrajPoint) (rest : List TrajPoint) :
    ∃ r2 rest2, evolveLoop Ffun M0 T0 nsteps fuel (r :: rest) = r2 :: rest2 := by
  obtain ⟨pre, hpre⟩ := evolveLoop_suffix Ffun M0 T0 nsteps fuel (r :: rest)
  match pre, hpre with
  | [], h => exact ⟨r, rest, by simpa using h⟩
  | p :: ps, h => exact ⟨p, ps ++ r :: rest, by simpa using h⟩

lemma evolveLoop_length_ge (Ffun : ℝ → ℝ) (M0 T0 : ℝ) (nsteps : ℕ) (fuel : ℕ)
    (hist : List TrajPoint) :
    hist.length ≤ (evolveLoop Ffun M0 T0 nsteps fuel hist).length := by
  obtain ⟨pre, hpre⟩ := evolveLoop_suffix Ffun M0 T0 nsteps fuel hist
  rw [hpre, List.length_append]
  omega

lemma evolveLoop_getLast? (Ffun : ℝ → ℝ) (M0 T0 : ℝ) (nsteps : ℕ) (fuel : ℕ)
    (r : TrajPoint) (rest : List TrajPoint) :
    (evolveLoop Ffun M0 T0 nsteps fuel (r :: rest)).getLast? = (r :: rest).getLast? := by
  obtain ⟨pre, hpre⟩ := evolveLoop_suffix Ffun M0 T0 nsteps fuel (r :: rest)
  rw [hpre, List.getLast?_append]
  cases h : (r :: rest).getLast? with
  | none => simp at h
  | some v => simp

/-- Any per-record predicate preserved by one step is preserved by the loop. -/
lemma evolveLoop_pres (Ffun : ℝ → ℝ) (M0 T0 : ℝ) (nsteps : ℕ) (P : TrajPoint → Prop)
    (hstep : ∀ r : TrajPoint, 1e-4 * M0 < r.M → ¬ dtOf Ffun M0 T0 r.M ≤ 0 →
      P r → P (stepOf Ffun M0 T0 r)) :
    ∀ fuel hist, (∀ x ∈ hist, P x) →
      ∀ x ∈ evolveLoop Ffun M0 T0 nsteps fuel hist, P x := by
  intro fuel
  induction fuel with
  | zero => intro hist h; simpa using h
  | succ n ih =>
    intro hist h
    match hist with
    | [] => simp [evolveLoop]
    | r :: rest =>
      rw [evolveLoop_succ_cons]
      split_ifs with h1 h2 h3
      · exact h
      · intro x hx
        rcases List.mem_cons.mp hx with hx | hx
        · exact hx ▸ hstep r h1 h2 (h r (List.mem_cons_self r rest))
        · exact h x hx
      · refine ih _ ?_
        intro x hx
        rcases List.mem_cons.mp hx with hx | hx
        · exact hx ▸ hstep r h1 h2 (h r (List.mem_cons_self r rest))
        · exact h x hx
      · exact h

/-- Any adjacency relation established by one step is preserved by the loop
(history is newest-first, so the new record is the left argument). -/
lemma evolveLoop_chain (Ffun : ℝ → ℝ) (M0 T0 : ℝ) (nsteps : ℕ) (R : TrajPoint → TrajPoint → Prop)
    (hstep : ∀ r : TrajPoint, 1e-4 * M0 < r.M → ¬ dtOf Ffun M0 T0 r.M ≤ 0 →
      R (stepOf Ffun M0 T0 r) r) :
    ∀ fuel hist, List.Chain' R hist →
      List.Chain' R (evolveLoop Ffun M0 T0 nsteps fuel hist) := by
  intro fuel
  induction fuel with
  | zero => intro hist h; simpa using h
  | succ n ih =>
    intro hist h
    match hist with
    | [] => simp [evolveLoop]
    | r :: rest =>
      rw [evolveLoop_succ_cons]
      split_ifs with h1 h2 h3
      · exact h
      · exact List.chain'_cons.mpr ⟨hstep r h1 h2, h⟩
      · exact ih _ (List.chain'_cons.mpr ⟨hstep r h1 h2, h⟩)
      · exact h

lemma getD_map_lt {l : List TrajPoint} {f : TrajPoint → ℝ} {i : ℕ} (hi : i < l.length) :
    (l.map f).getD i 0 = f l[i] := by
  rw [List.getD_eq_getElem?_getD, List.getElem?_map, List.getElem?_eq_getElem hi]
  rfl

lemma trajHistG_ne_nil (Ffun : ℝ → ℝ) (M0 T0 : ℝ) (nsteps : ℕ) :
    trajHistG Ffun M0 T0 nsteps ≠ [] := by
  obtain ⟨r2, rest2, h⟩ :=
    evolveLoop_cons Ffun M0 T0 nsteps nsteps (initPoint M0 T0) []
  unfold trajHistG runRevG initHist
  rw [h]
  simp

/-- The entropy bookkeeping of one Euler step is exactly conservative. -/
lemma stepOf_entropy (Ffun : ℝ → ℝ) (M0 T0 : ℝ) (r : TrajPoint) :
    (stepOf Ffun M0 T0 r).S_bh + (stepOf Ffun M0 T0 r).S_rad = r.S_bh + r.S_rad := by
  simp only [stepOf]
  ring

lemma trajHistG_entropy (Ffun : ℝ → ℝ) (M0 T0 : ℝ) (nsteps : ℕ) :
    ∀ r ∈ trajHistG Ffun M0 T0 nsteps,
      r.S_bh + r.S_rad = 4 * Real.pi * M0 ^ 2 / Real.log 2 := by
  intro r hr
  rw [trajHistG, List.mem_reverse] at hr
  refine evolveLoop_pres Ffun M0 T0 nsteps
    (fun x => x.S_bh + x.S_rad = 4 * Real.pi * M0 ^ 2 / Real.log 2)
    (fun x _ _ hx => by
      show (stepOf Ffun M0 T0 x).S_bh + (stepOf Ffun M0 T0 x).S_rad = _
      rw [stepOf_entropy]; exact hx)
    nsteps (initHist M0 T0) ?_ r hr
  intro x hx
  rcases List.mem_singleton.mp hx with rfl
  simp [initPoint]

/-- Combined form: a member predicate and an adjacency relation that one step
establishes together are preserved together by the loop. -/
lemma evolveLoop_chain_pres (Ffun : ℝ → ℝ) (M0 T0 : ℝ) (nsteps : ℕ)
    (P : TrajPoint → Prop) (R : TrajPoint → TrajPoint → Prop)
    (hstep : ∀ r : TrajPoint, 1e-4 * M0 < r.M → ¬ dtOf Ffun M0 T0 r.M ≤ 0 → P r →
      P (stepOf Ffun M0 T0 r) ∧ R (stepOf Ffun M0 T0 r) r) :
    ∀ fuel hist, (∀ x ∈ hist, P x) → List.Chain' R hist →
      (∀ x ∈ evolveLoop Ffun M0 T0 nsteps fuel hist, P x) ∧
        List.Chain' R (evolveLoop Ffun M0 T0 nsteps fuel hist) := by
  intro fuel
  induction fuel with
  | zero => intro hist hP hR; exact ⟨by simpa using hP, by simpa using hR⟩
  | succ n ih =>
    intro hist hP hR
    match hist with
    | [] => simp [evolveLoop]
    | r :: rest =>
      rw [evolveLoop_succ_cons]
      split_ifs with h1 h2 h3
      · exact ⟨hP, hR⟩
      · obtain ⟨hp, hr⟩ := hstep r h1 h2 (hP r (List.mem_cons_self r rest))
        refine ⟨?_, List.chain'_cons.mpr ⟨hr, hR⟩⟩
        intro x hx
        rcases List.mem_cons.mp hx with hx | hx
        · exact hx ▸ hp
        · exact hP x hx
      · obtain ⟨hp, hr⟩ := hstep r h1 h2 (hP r (List.mem_cons_self r rest))
        refine ih _ ?_ (List.chain'_cons.mpr ⟨hr, hR⟩)
        intro x hx
        rcases List.mem_cons.mp hx with hx | hx
        · exact hx ▸ hp
        · exact hP x hx
      · exact ⟨hP, hR⟩

/-- With a non-positive initial mass the `while` guard fails at once. -/
lemma runRevG_of_M0_nonpos (Ffun : ℝ → ℝ) (M0 T0 : ℝ) (nsteps : ℕ) (hM0 : M0 ≤ 0) :
    runRevG Ffun M0 T0 nsteps = initHist M0 T0 := by
  unfold runRevG initHist
  cases nsteps with
  | zero => rfl
  | succ n =>
    rw [evolveLoop_succ_cons]
    rw [if_neg]
    show ¬ 1e-4 * M0 < (initPoint M0 T0).M
    simp only [initPoint]
    nlinarith

/-- Invariant carried through the loop for the monotonicity claims. -/
def massInv (M0 : ℝ) (x : TrajPoint) : Prop :=
  x.S_bh = 4 * Real.pi * x.M ^ 2 / Real.log 2 ∧ 1e-6 * M0 ≤ x.M ∧ 0 ≤ x.S_rad

/-- Adjacency relation (newest record on the left) for the monotonicity claims. -/
def monoRel (a b : TrajPoint) : Prop :=
  a.M ≤ b.M ∧ b.t < a.t ∧ a.S_bh ≤ b.S_bh ∧ b.S_rad ≤ a.S_rad

/-- Core step analysis under `F ≥ 0`: mass does not increase, time strictly
increases, black-hole entropy does not increase, radiation entropy does not
decrease, and the invariant survives. -/
lemma step_core (Ffun : ℝ → ℝ) (M0 T0 : ℝ) (hM0 : 0 < M0) (hF : ∀ T, 0 ≤ Ffun T)
    (r : TrajPoint) (h1 : 1e-4 * M0 < r.M) (h2 : ¬ dtOf Ffun M0 T0 r.M ≤ 0)
    (hP : massInv M0 r) :
    massInv M0 (stepOf Ffun M0 T0 r) ∧ monoRel (stepOf Ffun M0 T0 r) r := by
  obtain ⟨hSbh, hMlb, hSrad⟩ := hP
  have hFpos : 0 ≤ Ffun (T_H r.M T0 M0) := hF _
  have hDpos : (0 : ℝ) < r.M ^ 2 + 1e-30 := by positivity
  have hdMdt : dMdtOf Ffun M0 T0 r.M ≤ 0 := by
    unfold dMdtOf
    have : 0 ≤ Ffun (T_H r.M T0 M0) / (r.M ^ 2 + 1e-30) := div_nonneg hFpos hDpos.le
    rw [neg_div]
    linarith
  have hdt0 : 0 ≤ dtOf Ffun M0 T0 r.M := by
    unfold dtOf
    positivity
  have hdtpos : 0 < dtOf Ffun M0 T0 r.M := lt_of_le_of_ne hdt0 (by
    intro h; exact h2 (le_of_eq h.symm))
  have hMpos : 0 < r.M := lt_trans (by nlinarith) h1
  set Mn := max (r.M + dMdtOf Ffun M0 T0 r.M * dtOf Ffun M0 T0 r.M) (1e-6 * M0) with hMn
  have hMn_le : Mn ≤ r.M := by
    apply max_le
    · nlinarith [mul_nonneg (neg_nonneg.mpr hdMdt) hdt0]
    · nlinarith
  have hMn_lb : 1e-6 * M0 ≤ Mn := le_max_right _ _
  have hMn_pos : 0 < Mn := lt_of_lt_of_le (by nlinarith) hMn_lb
  have hlog2 : 0 < Real.log 2 := Real.log_pos (by norm_num)
  have hSbh_new : 4 * Real.pi * Mn ^ 2 / Real.log 2 ≤ r.S_bh := by
    rw [hSbh]
    have hsq : Mn ^ 2 ≤ r.M ^ 2 := pow_le_pow_left₀ hMn_pos.le hMn_le 2
    have hnum : 4 * Real.pi * Mn ^ 2 ≤ 4 * Real.pi * r.M ^ 2 := by nlinarith [Real.pi_pos]
    exact div_le_div_of_nonneg_right hnum hlog2.le
  constructor
  · refine ⟨rfl, ?_, ?_⟩
    · exact hMn_lb
    · show 0 ≤ r.S_rad - (4 * Real.pi * Mn ^ 2 / Real.log 2 - r.S_bh)
      linarith
  · refine ⟨hMn_le, ?_, hSbh_new, ?_⟩
    · show r.t < r.t + dtOf Ffun M0 T0 r.M
      linarith
    · show r.S_rad ≤ r.S_rad - (4 * Real.pi * Mn ^ 2 / Real.log 2 - r.S_bh)
      linarith

/-- Master monotonicity facts about the generic loop under `F ≥ 0`. -/
lemma trajHistG_mono (Ffun : ℝ → ℝ) (M0 T0 : ℝ) (nsteps : ℕ) (hF : ∀ T, 0 ≤ Ffun T) :
    (∀ x ∈ trajHistG Ffun M0 T0 nsteps, massInv M0 x ∨ M0 ≤ 0) ∧
      List.Chain' (fun a b => b.M ≤ a.M ∧ a.t < b.t ∧ b.S_bh ≤ a.S_bh ∧ a.S_rad ≤ b.S_rad)
        (trajHistG Ffun M0 T0 nsteps) ∧
      (∀ x ∈ trajHistG Ffun M0 T0 nsteps, 0 ≤ x.S_rad) := by
  by_cases hM0 : 0 < M0
  · have base : ∀ x ∈ initHist M0 T0, massInv M0 x := by
      intro x hx
      rcases List.mem_singleton.mp hx with rfl
      refine ⟨rfl, ?_, le_refl 0⟩
      show (1e-6 : ℝ) * M0 ≤ M0
      nlinarith
    obtain ⟨hmem, hchain⟩ :=
      evolveLoop_chain_pres Ffun M0 T0 nsteps (massInv M0) monoRel
        (fun r h1 h2 hp => step_core Ffun M0 T0 hM0 hF r h1 h2 hp)
        nsteps (initHist M0 T0) base (by simp [initHist])
    refine ⟨fun x hx => Or.inl (hmem x (by simpa [trajHistG] using List.mem_reverse.mp hx)), ?_, ?_⟩
    · unfold trajHistG
      rw [List.chain'_reverse]
      exact hchain.imp (fun a b h => h)
    · intro x hx
      exact (hmem x (by simpa [trajHistG] using List.mem_reverse.mp hx)).2.2
  · have hrun : trajHistG Ffun M0 T0 nsteps = [initPoint M0 T0] := by
      unfold trajHistG
      rw [runRevG_of_M0_nonpos Ffun M0 T0 nsteps (le_of_not_lt hM0)]
      rfl
    rw [hrun]
    refine ⟨fun x _ => Or.inr (le_of_not_lt hM0), List.chain'_singleton _, ?_⟩
    intro x hx
    rcases List.mem_singleton.mp hx with rfl
    exact le_refl 0

/-- C1.  Entropy conservation invariant of `evolve_trajectory`: at every
recorded step `i`, `S_bits[i] + bits_emitted[i]` equals
`S_bits[0] = 4*pi*M0^2/ln 2` exactly, the radiation entropy being defined each
step as the complement `S_rad - (S_bh_new - S_bh)`. -/
theorem C1_entropy_conservation (M0 T0 : ℝ) (nsteps : ℕ) (i : ℕ)
    (hi : i < (SbitsList M0 T0 nsteps).length) :
    (SbitsList M0 T0 nsteps).getD i 0 + (bitsEmittedList M0 T0 nsteps).getD i 0 =
      4 * Real.pi * M0 ^ 2 / Real.log 2 ∧
    (SbitsList M0 T0 nsteps).getD 0 0 = 4 * Real.pi * M0 ^ 2 / Real.log 2 := by
  have hlen : (SbitsList M0 T0 nsteps).length = (trajHist M0 T0 nsteps).length := by
    simp [SbitsList]
  have hi2 : i < (trajHist M0 T0 nsteps).length := hlen ▸ hi
  have heq : trajHist M0 T0 nsteps = trajHistG fullF M0 T0 nsteps := rfl
  constructor
  · rw [SbitsList, bitsEmittedList, getD_map_lt hi2, getD_map_lt hi2]
    exact trajHistG_entropy fullF M0 T0 nsteps _ (heq ▸ List.getElem_mem hi2)
  · have hhead : (trajHist M0 T0 nsteps).head? = some (initPoint M0 T0) := by
      unfold trajHist runRev runRevG
      rw [List.head?_reverse]
      unfold initHist
      rw [evolveLoop_getLast?]
      rfl
    obtain ⟨tl, htl⟩ : ∃ tl, trajHist M0 T0 nsteps = initPoint M0 T0 :: tl := by
      cases hl : trajHist M0 T0 nsteps with
      | nil => rw [hl] at hhead; simp at hhead
      | cons a l =>
        rw [hl] at hhead
        simp only [List.head?_cons, Option.some.injEq] at hhead
        exact ⟨l, by rw [hhead]⟩
    rw [SbitsList, htl]
    simp [initPoint]

theorem C1_entropy_conservation_witness :
    0 < (SbitsList 1 1 0).length ∧
      ((SbitsList 1 1 0).getD 0 0 + (bitsEmittedList 1 1 0).getD 0 0 =
          4 * Real.pi * 1 ^ 2 / Real.log 2 ∧
        (SbitsList 1 1 0).getD 0 0 = 4 * Real.pi * 1 ^ 2 / Real.log 2) :=
  ⟨by simp [SbitsList, trajHist, runRev, runRevG, evolveLoop_zero, initHist],
   C1_entropy_conservation 1 1 0 0
     (by simp [SbitsList, trajHist, runRev, runRevG, evolveLoop_zero, initHist])⟩

/-- C10.  If the efficiency function is nonnegative at every temperature, the
recorded `S_bits` sequence is non-increasing, `bits_emitted` is non-decreasing,
and (starting from 0) every recorded `bits_emitted[i]` is nonnegative. -/
theorem C10_entropy_monotone (Ffun : ℝ → ℝ) (M0 T0 : ℝ) (nsteps : ℕ)
    (hF : ∀ T, 0 ≤ Ffun T) :
    List.Chain' (fun a b => b ≤ a) ((trajHistG Ffun M0 T0 nsteps).map TrajPoint.S_bh) ∧
    List.Chain' (fun a b => a ≤ b) ((trajHistG Ffun M0 T0 nsteps).map TrajPoint.S_rad) ∧
    ∀ v ∈ (trajHistG Ffun M0 T0 nsteps).map TrajPoint.S_rad, 0 ≤ v := by
  obtain ⟨_, hchain, hnn⟩ := trajHistG_mono Ffun M0 T0 nsteps hF
  refine ⟨?_, ?_, ?_⟩
  · rw [List.chain'_map]
    exact hchain.imp (fun a b h => h.2.2.1)
  · rw [List.chain'_map]
    exact hchain.imp (fun a b h => h.2.2.2)
  · intro v hv
    obtain ⟨x, hx, rfl⟩ := List.mem_map.mp hv
    exact hnn x hx

theorem C10_entropy_monotone_witness :
    List.Chain' (fun a b => b ≤ a) ((trajHistG (fun _ => 0) 1 1 0).map TrajPoint.S_bh) ∧
    List.Chain' (fun a b => a ≤ b) ((trajHistG (fun _ => 0) 1 1 0).map TrajPoint.S_rad) ∧
    ∀ v ∈ (trajHistG (fun _ => 0) 1 1 0).map TrajPoint.S_rad, 0 ≤ v :=
  C10_entropy_monotone (fun _ => 0) 1 1 0 (fun _ => le_refl 0)

/-! ## Greybody factor lemmas -/

lemma ratio_nonneg (p : ℕ) (y : ℝ) (hy : 0 ≤ y) : 0 ≤ y ^ p / (1 + y ^ p) :=
  div_nonneg (pow_nonneg hy p) (by positivity)

lemma ratio_le_one (p : ℕ) (y : ℝ) (hy : 0 ≤ y) : y ^ p / (1 + y ^ p) ≤ 1 := by
  rw [div_le_one (by positivity)]
  linarith [pow_nonneg hy p]

lemma ratio_mono (p : ℕ) {y1 y2 : ℝ} (h0 : 0 ≤ y1) (h12 : y1 ≤ y2) :
    y1 ^ p / (1 + y1 ^ p) ≤ y2 ^ p / (1 + y2 ^ p) := by
  have ha : 0 ≤ y1 ^ p := pow_nonneg h0 p
  have hb : y1 ^ p ≤ y2 ^ p := pow_le_pow_left₀ h0 h12 p
  have h1p : (0 : ℝ) < 1 + y1 ^ p := by linarith
  have h2p : (0 : ℝ) < 1 + y2 ^ p := by linarith
  rw [div_le_div_iff h1p h2p]
  nlinarith

lemma chi_nonneg (y s : ℝ) (hy : 0 ≤ y) : 0 ≤ chi_s_y y s := by
  unfold chi_s_y
  split_ifs <;>
    nlinarith [Real.pi_pos, ratio_nonneg 2 y hy, ratio_nonneg 4 y hy, ratio_nonneg 6 y hy]

lemma chi_mono (s : ℝ) {y1 y2 : ℝ} (h0 : 0 ≤ y1) (h12 : y1 ≤ y2) :
    chi_s_y y1 s ≤ chi_s_y y2 s := by
  unfold chi_s_y
  split_ifs <;>
    nlinarith [Real.pi_pos, ratio_mono 2 h0 h12, ratio_mono 4 h0 h12, ratio_mono 6 h0 h12]

lemma chi_le (s y : ℝ) (hy : 0 ≤ y) : chi_s_y y s ≤ 27 * Real.pi / 4 := by
  unfold chi_s_y
  split_ifs <;>
    nlinarith [Real.pi_pos, ratio_le_one 2 y hy, ratio_le_one 4 y hy, ratio_le_one 6 y hy,
      ratio_nonneg 2 y hy, ratio_nonneg 4 y hy, ratio_nonneg 6 y hy]

/-- C6.  Greybody evaluator: `chi_s_y` is monotone non-decreasing in `y ≥ 0`
and bounded by `27*pi/4` (for every spin, in particular the four supported
ones); at `y = 0` it is `4*pi` for `s = 0` and `0` for `s ∈ {1/2, 1, 2}`; for
any spin outside the four detection windows it falls back to the `s = 1/2`
formula. -/
theorem C6_greybody_properties :
    (∀ s y1 y2 : ℝ, 0 ≤ y1 → y1 ≤ y2 → chi_s_y y1 s ≤ chi_s_y y2 s) ∧
    (∀ s y : ℝ, 0 ≤ y → chi_s_y y s ≤ 27 * Real.pi / 4) ∧
    chi_s_y 0 0 = 4 * Real.pi ∧
    (chi_s_y 0 (1 / 2) = 0 ∧ chi_s_y 0 1 = 0 ∧ chi_s_y 0 2 = 0) ∧
    (∀ s y : ℝ, ¬ |s| < 1e-9 → ¬ |s - 0.5| < 1e-9 → ¬ |s - 1| < 1e-9 → ¬ |s - 2| < 1e-9 →
      chi_s_y y s = chi_s_y y (1 / 2)) := by
  refine ⟨fun s y1 y2 h0 h12 => chi_mono s h0 h12, fun s y hy => chi_le s y hy, ?_, ⟨?_, ?_, ?_⟩, ?_⟩
  · unfold chi_s_y
    rw [if_pos (by norm_num [abs_lt])]
    norm_num
  · unfold chi_s_y
    rw [if_neg (by norm_num [abs_lt]), if_pos (by norm_num [abs_lt])]
    norm_num
  · unfold chi_s_y
    rw [if_neg (by norm_num [abs_lt]), if_neg (by norm_num [abs_lt]),
      if_pos (by norm_num [abs_lt])]
    norm_num
  · unfold chi_s_y
    rw [if_neg (by norm_num [abs_lt]), if_neg (by norm_num [abs_lt]),
      if_neg (by norm_num [abs_lt]), if_pos (by norm_num [abs_lt])]
    norm_num
  · intro s y h1 h2 h3 h4
    unfold chi_s_y
    rw [if_neg h1, if_neg h2, if_neg h3, if_neg h4,
      if_neg (by norm_num [abs_lt]), if_pos (by norm_num [abs_lt])]

theorem C6_greybody_properties_witness :
    chi_s_y 0 2 ≤ chi_s_y 1 2 ∧ chi_s_y 1 2 ≤ 27 * Real.pi / 4 ∧
      chi_s_y 5 7 = chi_s_y 5 (1 / 2) :=
  ⟨C6_greybody_properties.1 2 0 1 (by norm_num) (by norm_num),
   C6_greybody_properties.2.1 2 1 (by norm_num),
   C6_greybody_properties.2.2.2.2 7 5 (by norm_num [abs_lt]) (by norm_num [abs_lt])
     (by norm_num [abs_lt]) (by norm_num [abs_lt])⟩

/-! ## Spectral integral lemmas -/

lemma denom_pos (fermion : Bool) (x : ℝ) : 0 < denom fermion x := by
  unfold denom
  split_ifs with h h2
  · positivity
  · exact Real.exp_pos x
  · linarith [not_le.mp h2]

lemma xmin_le_xmax (spec : Species) (T : ℝ) : xminOf spec T ≤ xmaxOf spec T := by
  unfold xminOf xmaxOf
  rcases le_or_lt (mu_of spec T) 1e-6 with h | h
  · rw [max_eq_right h]
    exact le_trans (by norm_num) (le_max_right _ 40)
  · rw [max_eq_left h.le]
    exact le_trans (by linarith) (le_max_left _ 40)

lemma xmin_ge (spec : Species) (T : ℝ) : (1e-6 : ℝ) ≤ xminOf spec T := le_max_right _ _

lemma gridStep_nonneg (spec : Species) (T : ℝ) (n : ℕ) :
    0 ≤ (xmaxOf spec T - xminOf spec T) / ((n : ℝ) - 1) ∨ n = 0 := by
  rcases Nat.eq_zero_or_pos n with h | h
  · exact Or.inr h
  · rcases Nat.lt_or_ge n 2 with h2 | h2
    · left
      have : n = 1 := by omega
      subst this
      norm_num
    · left
      apply div_nonneg (sub_nonneg.mpr (xmin_le_xmax spec T))
      have : (2 : ℝ) ≤ (n : ℝ) := by exact_mod_cast h2
      linarith

lemma gridPt_ge (spec : Species) (T : ℝ) (n : ℕ) (i : ℕ) (hn : 1 ≤ n) :
    (1e-6 : ℝ) ≤ gridPt spec T n i := by
  unfold gridPt
  rcases gridStep_nonneg spec T n with h | h
  · have : 0 ≤ (i : ℝ) * ((xmaxOf spec T - xminOf spec T) / ((n : ℝ) - 1)) :=
      mul_nonneg (Nat.cast_nonneg i) h
    linarith [xmin_ge spec T]
  · omega

lemma gridPt_pos (spec : Species) (T : ℝ) (n : ℕ) (i : ℕ) (hn : 1 ≤ n) :
    0 < gridPt spec T n i :=
  lt_of_lt_of_le (by norm_num) (gridPt_ge spec T n i hn)

lemma integrand_nonneg (spec : Species) (T : ℝ) (n : ℕ) (i : ℕ) (hn : 1 ≤ n) :
    0 ≤ integrandAt spec T n i := by
  unfold integrandAt
  apply div_nonneg _ (denom_pos spec.fermion _).le
  apply mul_nonneg (pow_nonneg (gridPt_pos spec T n i hn).le 3)
  exact chi_nonneg _ _ (div_nonneg (gridPt_pos spec T n i hn).le (by positivity))

lemma gridPt_succ_sub (spec : Species) (T : ℝ) (n : ℕ) (i : ℕ) :
    gridPt spec T n (i + 1) - gridPt spec T n i =
      (xmaxOf spec T - xminOf spec T) / ((n : ℝ) - 1) := by
  unfold gridPt
  push_cast
  ring

lemma I_species_nonneg (T : ℝ) (spec : Species) (n : ℕ) : 0 ≤ I_species T spec n := by
  unfold I_species
  rcases Nat.eq_zero_or_pos n with h | h
  · subst h
    simp
  · apply mul_nonneg (Nat.cast_nonneg spec.g)
    apply Finset.sum_nonneg
    intro i _
    apply div_nonneg _ (by norm_num : (0:ℝ) ≤ 2)
    apply mul_nonneg
    · rw [gridPt_succ_sub]
      rcases gridStep_nonneg spec T n with hs | hs
      · exact hs
      · omega
    · exact add_nonneg (integrand_nonneg spec T n i h) (integrand_nonneg spec T n (i + 1) h)

lemma F_of_T_nonneg (T : ℝ) (n : ℕ) : 0 ≤ F_of_T T n := by
  unfold F_of_T I_of_T
  apply List.sum_nonneg
  intro v hv
  obtain ⟨spec, _, rfl⟩ := List.mem_map.mp hv
  exact I_species_nonneg T spec n

/-- C3.  For every temperature `T > 0`, catalog species and resolution `≥ 2`,
`_I_species` is nonnegative, and every occupation denominator on the grid is
strictly positive (so the integrand is finite: no division by zero occurs). -/
theorem C3_I_species_safe (T : ℝ) (spec : Species) (n : ℕ)
    (hT : 0 < T) (hspec : spec ∈ species_set) (hn : 2 ≤ n) :
    0 ≤ I_species T spec n ∧
      ∀ i : ℕ, 0 < denom spec.fermion (gridPt spec T n i) :=
  ⟨I_species_nonneg T spec n, fun i => denom_pos spec.fermion _⟩

theorem C3_I_species_safe_witness :
    0 ≤ I_species 1e12 photonS 2 ∧
      ∀ i : ℕ, 0 < denom photonS.fermion (gridPt photonS 1e12 2 i) :=
  C3_I_species_safe 1e12 photonS 2 (by norm_num) (by simp [species_set]) (by norm_num)

/-- C9.  Dead-code safeguard: for `T > 0` every grid point is `≥ 1e-6 > 0`,
hence `e^x - 1 > 0` there, and for a bosonic species the Bose-Einstein
safeguard branch (`den[den <= 0] = e^x`) is never taken on the grid. -/
theorem C9_safeguard_dead (T : ℝ) (spec : Species) (n : ℕ) (i : ℕ)
    (hT : 0 < T) (hspec : spec ∈ species_set) (hn : 2 ≤ n) (hi : i < n) :
    (1e-6 : ℝ) ≤ gridPt spec T n i ∧
      0 < Real.exp (gridPt spec T n i) - 1 ∧
      (spec.fermion = false →
        denom spec.fermion (gridPt spec T n i) = Real.exp (gridPt spec T n i) - 1) := by
  have hx : (1e-6 : ℝ) ≤ gridPt spec T n i := gridPt_ge spec T n i (by omega)
  have hexp : 0 < Real.exp (gridPt spec T n i) - 1 := by
    have := Real.add_one_le_exp (gridPt spec T n i)
    linarith
  refine ⟨hx, hexp, fun hferm => ?_⟩
  unfold denom
  rw [hferm]
  simp only [Bool.false_eq_true, if_false]
  rw [if_neg (not_le.mpr hexp)]

theorem C9_safeguard_dead_witness :
    (1e-6 : ℝ) ≤ gridPt photonS 1e12 2 0 ∧
      0 < Real.exp (gridPt photonS 1e12 2 0) - 1 ∧
      (photonS.fermion = false →
        denom photonS.fermion (gridPt photonS 1e12 2 0) =
          Real.exp (gridPt photonS 1e12 2 0) - 1) :=
  C9_safeguard_dead 1e12 photonS 2 0 (by norm_num) (by simp [species_set]) (by norm_num)
    (by norm_num)

/-! ## First-occurrence argmin (np.argmin) -/

lemma argminGo_spec : ∀ (rest : List ℝ) (bv : ℝ) (i best : ℕ),
    (argminGo rest bv i best = best ∧ ∀ k, k < rest.length → bv ≤ rest.getD k 0) ∨
    (∃ k, k < rest.length ∧ argminGo rest bv i best = i + k ∧ rest.getD k 0 < bv ∧
      (∀ j, j < rest.length → rest.getD k 0 ≤ rest.getD j 0) ∧
      (∀ j, j < k → rest.getD k 0 < rest.getD j 0)) := by
  intro rest
  induction rest with
  | nil =>
    intro bv i best
    left
    exact ⟨rfl, fun k hk => by simp at hk⟩
  | cons v rest2 ih =>
    intro bv i best
    unfold argminGo
    by_cases hv : v < bv
    · rw [if_pos hv]
      rcases ih v (i + 1) i with ⟨heq, hall⟩ | ⟨k, hk, heq, hlt, hmin, hstrict⟩
      · right
        refine ⟨0, by simp, by simpa using heq, by simpa using hv, ?_, fun j hj => by omega⟩
        intro j hj
        cases j with
        | zero => simp
        | succ m =>
          rw [List.getD_cons_zero, List.getD_cons_succ]
          exact hall m (by simpa using hj)
      · right
        refine ⟨k + 1, by simpa using hk, ?_, ?_, ?_, ?_⟩
        · rw [heq]; omega
        · rw [List.getD_cons_succ]; linarith
        · intro j hj
          cases j with
          | zero =>
            rw [List.getD_cons_succ, List.getD_cons_zero]
            linarith
          | succ m =>
            rw [List.getD_cons_succ, List.getD_cons_succ]
            exact hmin m (by simpa using hj)
        · intro j hj
          cases j with
          | zero =>
            rw [List.getD_cons_succ, List.getD_cons_zero]
            linarith
          | succ m =>
            rw [List.getD_cons_succ, List.getD_cons_succ]
            exact hstrict m (by omega)
    · rw [if_neg hv]
      push_neg at hv
      rcases ih bv (i + 1) best with ⟨heq, hall⟩ | ⟨k, hk, heq, hlt, hmin, hstrict⟩
      · left
        refine ⟨heq, ?_⟩
        intro k hk
        cases k with
        | zero => simpa using hv
        | succ m =>
          rw [List.getD_cons_succ]
          exact hall m (by simpa using hk)
      · right
        refine ⟨k + 1, by simpa using hk, ?_, ?_, ?_, ?_⟩
        · rw [heq]; omega
        · rw [List.getD_cons_succ]; linarith
        · intro j hj
          cases j with
          | zero =>
            rw [List.getD_cons_succ, List.getD_cons_zero]
            linarith
          | succ m =>
            rw [List.getD_cons_succ, List.getD_cons_succ]
            exact hmin m (by simpa using hj)
        · intro j hj
          cases j with
          | zero =>
            rw [List.getD_cons_succ, List.getD_cons_zero]
            linarith
          | succ m =>
            rw [List.getD_cons_succ, List.getD_cons_succ]
            exact hstrict m (by omega)

lemma argminL_spec (l : List ℝ) (hl : l ≠ []) :
    argminL l < l.length ∧
    (∀ j, j < l.length → l.getD (argminL l) 0 ≤ l.getD j 0) ∧
    (∀ j, j < argminL l → l.getD (argminL l) 0 < l.getD j 0) := by
  match l with
  | [] => exact absurd rfl hl
  | v :: rest =>
    rcases argminGo_spec rest v 1 0 with ⟨heq, hall⟩ | ⟨k, hk, heq, hlt, hmin, hstrict⟩
    · have hidx : argminL (v :: rest) = 0 := heq
      rw [hidx]
      refine ⟨by simp, ?_, fun j hj => by omega⟩
      intro j hj
      cases j with
      | zero => simp
      | succ m =>
        rw [List.getD_cons_zero, List.getD_cons_succ]
        exact hall m (by simpa using hj)
    · have hidx : argminL (v :: rest) = k + 1 := by
        show argminGo rest v 1 0 = k + 1
        rw [heq]; omega
      rw [hidx]
      refine ⟨by simpa using hk, ?_, ?_⟩
      · intro j hj
        cases j with
        | zero =>
          rw [List.getD_cons_succ, List.getD_cons_zero]
          linarith
        | succ m =>
          rw [List.getD_cons_succ, List.getD_cons_succ]
          exact hmin m (by simpa using hj)
      · intro j hj
        cases j with
        | zero =>
          rw [List.getD_cons_succ, List.getD_cons_zero]
          linarith
        | succ m =>
          rw [List.getD_cons_succ, List.getD_cons_succ]
          exact hstrict m (by omega)

/-- C7.  Page point selection: `idx_page` minimizes `|S_bits - bits_emitted|`
over the whole recorded history, ties are broken by the earliest index (every
earlier index has a strictly larger value), and `tau_page`, `M_page_over_M0`
are the `tau` and `M_over_M0` entries at that index. -/
theorem C7_page_point (M0 T0 : ℝ) (nsteps : ℕ) :
    idxPage M0 T0 nsteps < (diffList M0 T0 nsteps).length ∧
    (∀ j, j < (diffList M0 T0 nsteps).length →
      (diffList M0 T0 nsteps).getD (idxPage M0 T0 nsteps) 0 ≤
        (diffList M0 T0 nsteps).getD j 0) ∧
    (∀ j, j < idxPage M0 T0 nsteps →
      (diffList M0 T0 nsteps).getD (idxPage M0 T0 nsteps) 0 <
        (diffList M0 T0 nsteps).getD j 0) ∧
    tauPage M0 T0 nsteps = (tauList M0 T0 nsteps).getD (idxPage M0 T0 nsteps) 0 ∧
    MPage M0 T0 nsteps = (MnormList M0 T0 nsteps).getD (idxPage M0 T0 nsteps) 0 := by
  have hne : diffList M0 T0 nsteps ≠ [] := by
    unfold diffList
    simp only [ne_eq, List.map_eq_nil_iff]
    exact trajHistG_ne_nil fullF M0 T0 nsteps
  obtain ⟨h1, h2, h3⟩ := argminL_spec (diffList M0 T0 nsteps) hne
  exact ⟨h1, h2, h3, rfl, rfl⟩

theorem C7_page_point_witness :
    (diffList 1 1 0).getD (idxPage 1 1 0) 0 ≤ (diffList 1 1 0).getD 0 0 :=
  (C7_page_point 1 1 0).2.1 0
    (by simp [diffList, trajHist, trajHistG, runRev, runRevG, evolveLoop_zero, initHist])

/-! ## A uniform positive lower bound on the spectral efficiency

The photon contribution to `I_of_T` does not depend on `T` (the photon is
massless, so its grid is always `linspace(1e-6, 40, 600)`), and a single
trapezoid of that quadrature already has an explicit positive value.  All
other contributions are nonnegative. -/

lemma photon_mu (T : ℝ) : mu_of photonS T = 0 := by
  unfold mu_of photonS
  norm_num

lemma photon_xmin (T : ℝ) : xminOf photonS T = 1e-6 := by
  unfold xminOf
  rw [photon_mu]
  norm_num

lemma photon_xmax (T : ℝ) : xmaxOf photonS T = 40 := by
  unfold xmaxOf
  rw [photon_mu]
  norm_num

lemma photon_grid (T : ℝ) (i : ℕ) :
    gridPt photonS T 600 i = 1e-6 + i * ((40 - 1e-6) / 599) := by
  unfold gridPt
  rw [photon_xmin, photon_xmax]
  norm_num

set_option maxHeartbeats 1000000 in
/-- Explicit lower bound for the photon integrand at grid point 44
(`x ≈ 2.938`). -/
lemma photon_f44_lb (T : ℝ) : (0.08 : ℝ) ≤ integrandAt photonS T 600 44 := by
  have hx : gridPt photonS T 600 44 = 1e-6 + 44 * ((40 - 1e-6) / 599) := photon_grid T 44
  set x : ℝ := gridPt photonS T 600 44 with hxdef
  have hx1 : (2.9382 : ℝ) ≤ x := by rw [hx]; norm_num
  have hx2 : x ≤ 2.9383 := by rw [hx]; norm_num
  have hpi1 := Real.pi_gt_3141592
  have hpi2 := Real.pi_lt_3141593
  have hexp_lb : x + 1 ≤ Real.exp x := Real.add_one_le_exp x
  have hden_pos : 0 < Real.exp x - 1 := by linarith
  have hden_eq : denom photonS.fermion x = Real.exp x - 1 := by
    show denom false x = _
    unfold denom
    simp only [Bool.false_eq_true, if_false]
    rw [if_neg (not_le.mpr hden_pos)]
  have hexp3eq : Real.exp 3 = Real.exp 1 ^ 3 := by
    rw [← Real.exp_nat_mul]
    norm_num
  have hexp_ub : Real.exp x ≤ 20.0856 := by
    have h1 : Real.exp x ≤ Real.exp 3 := Real.exp_le_exp.mpr (by linarith)
    have h3 : Real.exp 1 ^ 3 ≤ 2.7182818286 ^ 3 :=
      pow_le_pow_left₀ (Real.exp_pos 1).le Real.exp_one_lt_d9.le 3
    have h4 : (2.7182818286 : ℝ) ^ 3 ≤ 20.0856 := by norm_num
    linarith [hexp3eq ▸ h1]
  have hden_ub : Real.exp x - 1 ≤ 19.0856 := by linarith
  have hchi_eq : chi_s_y (x / (4 * Real.pi)) photonS.spin =
      27 * Real.pi / 4 *
        ((x / (4 * Real.pi)) ^ 4 / (1 + (x / (4 * Real.pi)) ^ 4)) := by
    show chi_s_y _ (1.0 : ℝ) = _
    unfold chi_s_y
    rw [if_neg (by norm_num [abs_lt]), if_neg (by norm_num [abs_lt]),
      if_pos (by norm_num [abs_lt])]
  set y : ℝ := x / (4 * Real.pi) with hy
  have h4pi_lb : (12.566368 : ℝ) ≤ 4 * Real.pi := by linarith
  have h4pi_ub : 4 * Real.pi ≤ 12.566372 := by linarith
  have hy_lb : (0.2338 : ℝ) ≤ y := by
    rw [hy, le_div_iff (by linarith)]
    nlinarith
  have hy_ub : y ≤ 0.2339 := by
    rw [hy, div_le_iff (by linarith)]
    nlinarith
  have hy0 : (0 : ℝ) ≤ y := by linarith
  have hy2_lb : (0.05466 : ℝ) ≤ y ^ 2 := by
    have h := pow_le_pow_left₀ (by norm_num : (0:ℝ) ≤ 0.2338) hy_lb 2
    have h2 : (0.05466 : ℝ) ≤ 0.2338 ^ 2 := by norm_num
    linarith
  have hy2_ub : y ^ 2 ≤ 0.0548 := by
    have h := pow_le_pow_left₀ hy0 hy_ub 2
    have h2 : (0.2339 : ℝ) ^ 2 ≤ 0.0548 := by norm_num
    linarith
  have hy4_eq : y ^ 4 = (y ^ 2) ^ 2 := by ring
  have hy4_lb : (0.002987 : ℝ) ≤ y ^ 4 := by
    rw [hy4_eq]
    have h := pow_le_pow_left₀ (by norm_num : (0:ℝ) ≤ 0.05466) hy2_lb 2
    have h2 : (0.002987 : ℝ) ≤ 0.05466 ^ 2 := by norm_num
    linarith
  have hy4_ub : y ^ 4 ≤ 0.0031 := by
    rw [hy4_eq]
    have h := pow_le_pow_left₀ (by positivity) hy2_ub 2
    have h2 : (0.0548 : ℝ) ^ 2 ≤ 0.0031 := by norm_num
    linarith
  have hq_lb : (0.002977 : ℝ) ≤ y ^ 4 / (1 + y ^ 4) := by
    rw [le_div_iff (by nlinarith)]
    nlinarith
  have hq_pos : (0 : ℝ) ≤ y ^ 4 / (1 + y ^ 4) := by positivity
  have hchi_lb : (0.0631 : ℝ) ≤ chi_s_y y photonS.spin := by
    rw [hchi_eq]
    have h1 : (27 * 3.141592 / 4 : ℝ) ≤ 27 * Real.pi / 4 := by linarith
    have h2 : (0.0631 : ℝ) ≤ (27 * 3.141592 / 4) * 0.002977 := by norm_num
    nlinarith
  have hx3 : (25.36 : ℝ) ≤ x ^ 3 := by
    have h := pow_le_pow_left₀ (by norm_num : (0:ℝ) ≤ 2.9382) hx1 3
    have h2 : (25.36 : ℝ) ≤ 2.9382 ^ 3 := by norm_num
    linarith
  show (0.08 : ℝ) ≤ x ^ 3 * chi_s_y y photonS.spin / denom photonS.fermion x
  rw [hden_eq, le_div_iff hden_pos]
  have hnum : (25.36 : ℝ) * 0.0631 ≤ x ^ 3 * chi_s_y y photonS.spin :=
    mul_le_mul hx3 hchi_lb (by norm_num) (by nlinarith)
  nlinarith

/-- The photon contribution to `I_of_T` at the default resolution is at least
`1e-5`, for every temperature. -/
lemma photon_I_lb (T : ℝ) : (1e-5 : ℝ) ≤ I_species T photonS 600 := by
  unfold I_species
  have hg : (photonS.g : ℝ) = 2 := by norm_num [photonS]
  have hterm : ∀ i ∈ Finset.range (600 - 1),
      0 ≤ (gridPt photonS T 600 (i + 1) - gridPt photonS T 600 i) *
        (integrandAt photonS T 600 i + integrandAt photonS T 600 (i + 1)) / 2 := by
    intro i _
    apply div_nonneg _ (by norm_num : (0:ℝ) ≤ 2)
    apply mul_nonneg
    · rw [gridPt_succ_sub, photon_xmin, photon_xmax]
      norm_num
    · exact add_nonneg (integrand_nonneg photonS T 600 i (by norm_num))
        (integrand_nonneg photonS T 600 (i + 1) (by norm_num))
  have hstep : gridPt photonS T 600 45 - gridPt photonS T 600 44 = (40 - 1e-6) / 599 := by
    rw [gridPt_succ_sub, photon_xmin, photon_xmax]
    norm_num
  have h44 : (0.0025 : ℝ) ≤
      (gridPt photonS T 600 45 - gridPt photonS T 600 44) *
        (integrandAt photonS T 600 44 + integrandAt photonS T 600 45) / 2 := by
    rw [hstep]
    have hf44 := photon_f44_lb T
    have hf45 := integrand_nonneg photonS T 600 45 (by norm_num)
    nlinarith
  have hsum : (0.0025 : ℝ) ≤
      ∑ i ∈ Finset.range (600 - 1),
        (gridPt photonS T 600 (i + 1) - gridPt photonS T 600 i) *
          (integrandAt photonS T 600 i + integrandAt photonS T 600 (i + 1)) / 2 :=
    le_trans h44 (Finset.single_le_sum hterm (by norm_num))
  rw [hg]
  nlinarith

/-- A uniform positive lower bound on the spectral efficiency at the default
resolution: `F_of_T(T, 600) ≥ 1e-5` for every `T`. -/
lemma fullF_lb (T : ℝ) : (1e-5 : ℝ) ≤ fullF T := by
  unfold fullF F_of_T I_of_T species_set
  simp only [List.map_cons, List.map_nil, List.sum_cons, List.sum_nil, add_zero]
  have h1 := photon_I_lb T
  have h2 := I_species_nonneg T gravitonS 600
  have h3 := I_species_nonneg T neutrinoS 600
  have h4 := I_species_nonneg T electronS 600
  have h5 := I_species_nonneg T muonS 600
  have h6 := I_species_nonneg T pionS 600
  linarith

lemma fullF_nonneg (T : ℝ) : 0 ≤ fullF T := le_trans (by norm_num) (fullF_lb T)

/-! ## Trajectory output monotonicity (C5) -/

/-- For masses up to `1e12` the adaptive step of the real simulator is
strictly positive: `F ≥ 1e-5` makes `dMdt + 1e-30` strictly negative. -/
lemma dtOf_pos (M0 T0 M : ℝ) (hM : 0 < M) (hMub : M ≤ 1e12) :
    0 < dtOf fullF M0 T0 M := by
  have hF := fullF_lb (T_H M T0 M0)
  have hD : (0 : ℝ) < M ^ 2 + 1e-30 := by positivity
  have hDub : M ^ 2 + 1e-30 ≤ 1e24 + 1 := by nlinarith
  have ha : (1e-5 : ℝ) / (1e24 + 1) ≤ fullF (T_H M T0 M0) / (M ^ 2 + 1e-30) := by
    rw [div_le_div_iff (by norm_num) hD]
    nlinarith
  have hE : dMdtOf fullF M0 T0 M + 1e-30 < 0 := by
    unfold dMdtOf
    rw [neg_div]
    have : (1e-30 : ℝ) < 1e-5 / (1e24 + 1) := by norm_num
    linarith
  unfold dtOf
  have hz : M / (dMdtOf fullF M0 T0 M + 1e-30) ≠ 0 :=
    div_ne_zero hM.ne' hE.ne
  have : 0 < |M / (dMdtOf fullF M0 T0 M + 1e-30)| := abs_pos.mpr hz
  linarith

/-- The first record of the chronological history is the step-0 record. -/
lemma trajHistG_head_init (Ffun : ℝ → ℝ) (M0 T0 : ℝ) (nsteps : ℕ) :
    (trajHistG Ffun M0 T0 nsteps).head? = some (initPoint M0 T0) := by
  unfold trajHistG runRevG
  rw [List.head?_reverse]
  unfold initHist
  rw [evolveLoop_getLast?]
  rfl

/-- With `0 < M0 ≤ 1e12` and a positive step budget, at least one step is
recorded. -/
lemma runRev_length_ge_two (M0 T0 : ℝ) (nsteps : ℕ)
    (hM0 : 0 < M0) (hM0ub : M0 ≤ 1e12) (hn : 1 ≤ nsteps) :
    2 ≤ (runRev M0 T0 nsteps).length := by
  unfold runRev runRevG initHist
  cases nsteps with
  | zero => omega
  | succ m =>
    rw [evolveLoop_succ_cons]
    rw [if_pos (by show (1e-4 : ℝ) * M0 < (initPoint M0 T0).M; show (1e-4 : ℝ) * M0 < M0; nlinarith)]
    rw [if_neg (not_le.mpr (dtOf_pos M0 T0 (initPoint M0 T0).M hM0 hM0ub))]
    split_ifs with h
    · simp
    · have := evolveLoop_length_ge fullF M0 T0 (m + 1) m
        (stepOf fullF M0 T0 (initPoint M0 T0) :: initPoint M0 T0 :: [])
      simp only [List.length_cons, List.length_nil] at this ⊢
      omega

/-- The newest record of a non-degenerate run has strictly positive time. -/
lemma runRev_head_t_pos (M0 T0 : ℝ) (nsteps : ℕ)
    (hM0 : 0 < M0) (hM0ub : M0 ≤ 1e12) (hn : 1 ≤ nsteps) :
    ∃ r2 rest2, runRev M0 T0 nsteps = r2 :: rest2 ∧ 0 < r2.t := by
  obtain ⟨r2, rest2, hrun⟩ :=
    evolveLoop_cons fullF M0 T0 nsteps nsteps (initPoint M0 T0) []
  have hrun2 : runRev M0 T0 nsteps = r2 :: rest2 := hrun
  refine ⟨r2, rest2, hrun2, ?_⟩
  obtain ⟨_, hchain, _⟩ := trajHistG_mono fullF M0 T0 nsteps fullF_nonneg
  have hchainRev : List.Chain' (fun a b : TrajPoint => b.t < a.t) (runRev M0 T0 nsteps) := by
    have h2 : List.Chain' (fun a b : TrajPoint => a.t < b.t)
        (trajHistG fullF M0 T0 nsteps) := hchain.imp (fun a b h => h.2.1)
    have h3 := (List.chain'_reverse (l := runRev M0 T0 nsteps)
      (R := fun a b : TrajPoint => a.t < b.t)).mp h2
    exact h3.imp (fun a b h => h)
  letI : IsTrans TrajPoint (fun a b : TrajPoint => b.t < a.t) :=
    ⟨fun a b c h1 h2 => lt_trans h2 h1⟩
  have hpair := List.chain'_iff_pairwise.mp hchainRev
  have hlast : (runRev M0 T0 nsteps).getLast? = some (initPoint M0 T0) := by
    unfold runRev runRevG initHist
    rw [evolveLoop_getLast?]
    rfl
  have hlen := runRev_length_ge_two M0 T0 nsteps hM0 hM0ub hn
  obtain ⟨r3, rest3, hrest2⟩ : ∃ r3 rest3, rest2 = r3 :: rest3 := by
    rw [hrun2] at hlen
    cases rest2 with
    | nil => simp at hlen
    | cons a l => exact ⟨a, l, rfl⟩
  have hmem : initPoint M0 T0 ∈ rest2 := by
    rw [hrun2, hrest2, List.getLast?_cons_cons] at hlast
    rw [hrest2]
    exact List.mem_of_mem_getLast? (by simp [hlast])
  rw [hrun2] at hpair
  have hrel := (List.pairwise_cons.mp hpair).1 (initPoint M0 T0) hmem
  have : (initPoint M0 T0).t = 0 := rfl
  linarith [hrel]

/-- C5.  Trajectory output monotonicity: the recorded `M_over_M0` values are
non-increasing, and the normalized times satisfy `tau[0] = 0`,
`tau[last] = 1`, with `tau` strictly increasing over the recorded history
(parameters in the non-degenerate regime `0 < M0 ≤ 1e12`, `n_steps ≥ 1`). -/
theorem C5_trajectory_monotone (M0 T0 : ℝ) (nsteps : ℕ)
    (hM0 : 0 < M0) (hM0ub : M0 ≤ 1e12) (hn : 1 ≤ nsteps) :
    List.Chain' (fun a b => b ≤ a) (MnormList M0 T0 nsteps) ∧
    (tauList M0 T0 nsteps).head? = some 0 ∧
    (tauList M0 T0 nsteps).getLast? = some 1 ∧
    List.Chain' (fun a b => a < b) (tauList M0 T0 nsteps) := by
  obtain ⟨_, hchain, _⟩ := trajHistG_mono fullF M0 T0 nsteps fullF_nonneg
  obtain ⟨r2, rest2, hrun2, ht2⟩ := runRev_head_t_pos M0 T0 nsteps hM0 hM0ub hn
  have htevap : t_evapOf M0 T0 nsteps = r2.t := by
    unfold t_evapOf
    rw [hrun2]
    rfl
  have htraj : trajHist M0 T0 nsteps = trajHistG fullF M0 T0 nsteps := rfl
  refine ⟨?_, ?_, ?_, ?_⟩
  · unfold MnormList
    rw [List.chain'_map, htraj]
    exact hchain.imp (fun a b h => div_le_div_of_nonneg_right h.1 hM0.le)
  · unfold tauList
    rw [List.head?_map, htraj, trajHistG_head_init]
    simp [initPoint, T_H]
  · unfold tauList
    rw [List.getLast?_map]
    have : (trajHist M0 T0 nsteps).getLast? = some r2 := by
      unfold trajHist
      rw [List.getLast?_reverse, hrun2]
      rfl
    rw [this]
    show some (r2.t / t_evapOf M0 T0 nsteps) = some 1
    rw [htevap, div_self ht2.ne']
  · unfold tauList
    rw [List.chain'_map, htraj]
    refine hchain.imp (fun a b h => ?_)
    rw [htevap]
    exact (div_lt_div_right ht2).mpr h.2.1

theorem C5_trajectory_monotone_witness :
    List.Chain' (fun a b => b ≤ a) (MnormList 1 1.227e12 8000) ∧
    (tauList 1 1.227e12 8000).head? = some 0 ∧
    (tauList 1 1.227e12 8000).getLast? = some 1 ∧
    List.Chain' (fun a b => a < b) (tauList 1 1.227e12 8000) :=
  C5_trajectory_monotone 1 1.227e12 8000 (by norm_num) (by norm_num) (by norm_num)

/-! ## Termination and the default run (C2)

General part: whenever the loop returns, one of the three stop conditions of
the source holds at the returned state (the fuel `n_steps` is never the
binding constraint).  Default part: with `M0 = 1`, `T0 = 1.227e12`,
`n_steps = 8000`, each step multiplies the mass by at least
`stepLB = 1 - 1.0001e-3` (because `F ≥ 1e-5` keeps the `1e-30` regularizers
negligible), and `stepLB ^ 7999 ≥ 2e-4 > 1e-4`, so the mass threshold is
never reached: the run stops at the step cap with 8000 recorded samples. -/

lemma stepLB_nonneg : (0 : ℝ) ≤ stepLB := by norm_num [stepLB]

lemma stepLB_le_one : stepLB ≤ 1 := by norm_num [stepLB]

lemma stepLB_eq : stepLB = ((9989999 / 10 ^ 7 : ℚ) : ℝ) := by norm_num [stepLB]

set_option exponentiation.threshold 60000 in
set_option maxHeartbeats 2000000 in
lemma stepLB_pow_lb : (2e-4 : ℝ) ≤ stepLB ^ 7999 := by
  have key : (2 / 10 ^ 4 : ℚ) ≤ (9989999 / 10 ^ 7) ^ 7999 := by norm_num
  have key2 : ((2 / 10 ^ 4 : ℚ) : ℝ) ≤ (((9989999 / 10 ^ 7) ^ 7999 : ℚ) : ℝ) :=
    Rat.cast_le.mpr key
  rw [Rat.cast_pow] at key2
  rw [stepLB_eq]
  refine le_trans (le_of_eq ?_) key2
  norm_num

/-- At the returned state of the loop one of the three stop conditions holds. -/
lemma evolveLoop_stop (Ffun : ℝ → ℝ) (M0 T0 : ℝ) (nsteps : ℕ) :
    ∀ fuel (r : TrajPoint) (rest : List TrajPoint),
      nsteps ≤ fuel + (r :: rest).length →
      ∃ r2 rest2, evolveLoop Ffun M0 T0 nsteps fuel (r :: rest) = r2 :: rest2 ∧
        (r2.M ≤ 1e-4 * M0 ∨ dtOf Ffun M0 T0 r2.M ≤ 0 ∨ nsteps ≤ (r2 :: rest2).length) := by
  intro fuel
  induction fuel with
  | zero =>
    intro r rest hle
    exact ⟨r, rest, rfl, Or.inr (Or.inr (by simpa using hle))⟩
  | succ m ih =>
    intro r rest hle
    rw [evolveLoop_succ_cons]
    split_ifs with h1 h2 h3
    · exact ⟨r, rest, rfl, Or.inr (Or.inl h2)⟩
    · exact ⟨stepOf Ffun M0 T0 r, r :: rest, rfl, Or.inr (Or.inr h3)⟩
    · refine ih (stepOf Ffun M0 T0 r) (r :: rest) ?_
      simp only [List.length_cons] at hle ⊢
      omega
    · exact ⟨r, rest, rfl, Or.inl (le_of_not_lt h1)⟩

/-- One step of the default run shrinks the mass by a factor in
`[stepLB, 1]` whenever `2e-4 ≤ M ≤ 1` (with `M0 = 1`). -/
lemma step_mass_bounds (T0 : ℝ) (r : TrajPoint) (h1 : r.M ≤ 1) (h2 : (2e-4 : ℝ) ≤ r.M) :
    stepLB * r.M ≤ (stepOf fullF 1 T0 r).M ∧ (stepOf fullF 1 T0 r).M ≤ r.M := by
  have hM : (0 : ℝ) < r.M := lt_of_lt_of_le (by norm_num) h2
  have hF := fullF_lb (T_H r.M T0 1)
  have hD : (0 : ℝ) < r.M ^ 2 + 1e-30 := by positivity
  have hDub : r.M ^ 2 + 1e-30 ≤ 2 := by nlinarith
  set a := fullF (T_H r.M T0 1) / (r.M ^ 2 + 1e-30) with hadef
  have ha_pos : 0 < a := div_pos (lt_of_lt_of_le (by norm_num) hF) hD
  have ha_lb : (5e-6 : ℝ) ≤ a := by
    rw [hadef, le_div_iff hD]
    nlinarith
  have hdm : dMdtOf fullF 1 T0 r.M = -a := by
    unfold dMdtOf
    rw [neg_div]
  set G := a - 1e-30 with hGdef
  have hG : (0 : ℝ) < G := by rw [hGdef]; linarith
  have hE : dMdtOf fullF 1 T0 r.M + 1e-30 = -G := by rw [hdm, hGdef]; ring
  have hdt : dtOf fullF 1 T0 r.M = 1e-3 * (r.M / G) := by
    unfold dtOf
    rw [hE, div_neg, abs_neg, abs_of_pos (div_pos hM hG)]
  have hq : a / G ≤ 1 + 1e-24 := by
    rw [div_le_iff hG]
    nlinarith
  have hq0 : 0 < a / G := div_pos ha_pos hG
  have hprod : dMdtOf fullF 1 T0 r.M * dtOf fullF 1 T0 r.M = -(1e-3 * r.M * (a / G)) := by
    rw [hdm, hdt]
    ring
  have h3 : r.M * (a / G) ≤ r.M * (1 + 1e-24) := mul_le_mul_of_nonneg_left hq hM.le
  have hMnew_raw_lb : stepLB * r.M ≤ r.M + dMdtOf fullF 1 T0 r.M * dtOf fullF 1 T0 r.M := by
    rw [hprod]
    unfold stepLB
    nlinarith
  have hMnew_raw_ub : r.M + dMdtOf fullF 1 T0 r.M * dtOf fullF 1 T0 r.M ≤ r.M := by
    rw [hprod]
    nlinarith
  constructor
  · show stepLB * r.M ≤
      max (r.M + dMdtOf fullF 1 T0 r.M * dtOf fullF 1 T0 r.M) (1e-6 * 1)
    exact le_trans hMnew_raw_lb (le_max_left _ _)
  · show max (r.M + dMdtOf fullF 1 T0 r.M * dtOf fullF 1 T0 r.M) (1e-6 * 1) ≤ r.M
    exact max_le hMnew_raw_ub (by nlinarith)

/-- Default-run invariant: starting from a history head whose mass is bounded
below by `stepLB ^ (recorded steps)`, the run reaches exactly 8000 records and
the final mass still exceeds `stepLB ^ 7999`. -/
lemma default_run_aux (T0 : ℝ) : ∀ fuel (r : TrajPoint) (rest : List TrajPoint),
    rest.length + 1 + fuel = 8001 → rest.length + 1 ≤ 7999 →
    stepLB ^ rest.length ≤ r.M → r.M ≤ 1 →
    ∃ r2 rest2, evolveLoop fullF 1 T0 8000 fuel (r :: rest) = r2 :: rest2 ∧
      rest2.length + 1 = 8000 ∧ stepLB ^ 7999 ≤ r2.M ∧ r2.M ≤ 1 := by
  intro fuel
  induction fuel with
  | zero => intro r rest hlen hcap _ _; omega
  | succ m ih =>
    intro r rest hlen hcap hlb hub
    have hrest_le : rest.length ≤ 7998 := by omega
    have hlb7999 : stepLB ^ 7999 ≤ r.M :=
      le_trans (pow_le_pow_of_le_one stepLB_nonneg stepLB_le_one (by omega)) hlb
    have hM2e4 : (2e-4 : ℝ) ≤ r.M := le_trans stepLB_pow_lb hlb7999
    have hMpos : (0 : ℝ) < r.M := lt_of_lt_of_le (by norm_num) hM2e4
    rw [evolveLoop_succ_cons]
    rw [if_pos (show (1e-4 : ℝ) * 1 < r.M by nlinarith)]
    rw [if_neg (not_le.mpr (dtOf_pos 1 T0 r.M hMpos (by linarith)))]
    obtain ⟨hstep_lb, hstep_ub⟩ := step_mass_bounds T0 r hub hM2e4
    have hnext_lb : stepLB ^ (rest.length + 1) ≤ (stepOf fullF 1 T0 r).M := by
      have h5 : stepLB * stepLB ^ rest.length ≤ stepLB * r.M :=
        mul_le_mul_of_nonneg_left hlb stepLB_nonneg
      calc stepLB ^ (rest.length + 1) = stepLB * stepLB ^ rest.length := by
            rw [pow_succ]; ring
        _ ≤ stepLB * r.M := h5
        _ ≤ (stepOf fullF 1 T0 r).M := hstep_lb
    by_cases hcap2 : (8000 : ℕ) ≤ (stepOf fullF 1 T0 r :: r :: rest).length
    · rw [if_pos hcap2]
      simp only [List.length_cons] at hcap2
      have hrest_eq : rest.length = 7998 := by omega
      refine ⟨stepOf fullF 1 T0 r, r :: rest, rfl, by simp [hrest_eq], ?_,
        le_trans hstep_ub hub⟩
      rw [show (7999 : ℕ) = rest.length + 1 by omega]
      exact hnext_lb
    · rw [if_neg hcap2]
      simp only [List.length_cons] at hcap2
      refine ih (stepOf fullF 1 T0 r) (r :: rest) (by simp; omega) (by simp; omega) ?_
        (le_trans hstep_ub hub)
      simpa using hnext_lb

/-- The default run, packaged: 8000 records, final mass in `[2e-4, 1]`. -/
lemma default_run (T0 : ℝ) :
    ∃ r2 rest2, runRev 1 T0 8000 = r2 :: rest2 ∧ rest2.length + 1 = 8000 ∧
      (2e-4 : ℝ) ≤ r2.M ∧ r2.M ≤ 1 := by
  obtain ⟨r2, rest2, heq, hlen, hlb, hub⟩ :=
    default_run_aux T0 8000 (initPoint 1 T0) [] (by simp) (by simp)
      (by simp [initPoint]) (by simp [initPoint])
  exact ⟨r2, rest2, heq, hlen, le_trans stepLB_pow_lb hlb, hub⟩

/-- C2 counterexample: with the defaults `M0 = 1`, `T0 = 1.227e12`,
`n_steps = 8000`, `evolve_trajectory` records exactly 8000 samples — the run
ends by hitting the step cap, not the mass condition: the final
`M_over_M0 = M/1` still exceeds `2e-4 > 1e-4 + 1e-5`, beyond the mass
threshold plus any one-step tolerance. -/
theorem C2_counterexample :
    (runRev 1 1.227e12 8000).length = 8000 ∧
    ∃ r2 rest2, runRev 1 1.227e12 8000 = r2 :: rest2 ∧
      (2e-4 : ℝ) ≤ r2.M / 1 ∧ ¬ r2.M / 1 ≤ 1e-4 + 1e-5 := by
  obtain ⟨r2, rest2, heq, hlen, hlb, hub⟩ := default_run 1.227e12
  refine ⟨by rw [heq]; simpa using hlen, r2, rest2, heq, by simpa using hlb, ?_⟩
  rw [div_one]
  intro h
  linarith

/-- C2, amended.  For every parameter choice the loop terminates, and the
returned state satisfies one of the three stop conditions (mass at or below
`1e-4*M0`, degenerate step `dt ≤ 0`, or history length at the step cap).
With the defaults `M0 = 1`, `T0 = 1.227e12`, `n_steps = 8000` it stops via
the step cap: exactly 8000 samples are recorded and the final mass is still
above the `1e-4*M0` threshold (indeed `≥ 2e-4`), so the mass condition is not
what ends the run. -/
theorem C2_termination_amended :
    (∀ (Ffun : ℝ → ℝ) (M0 T0 : ℝ) (nsteps : ℕ),
      ∃ r2 rest2, runRevG Ffun M0 T0 nsteps = r2 :: rest2 ∧
        (r2.M ≤ 1e-4 * M0 ∨ dtOf Ffun M0 T0 r2.M ≤ 0 ∨
          nsteps ≤ (r2 :: rest2).length)) ∧
    ((runRev 1 1.227e12 8000).length = 8000 ∧
      ∃ r2 rest2, runRev 1 1.227e12 8000 = r2 :: rest2 ∧
        (2e-4 : ℝ) ≤ r2.M ∧ 1e-4 * 1 < r2.M) := by
  constructor
  · intro Ffun M0 T0 nsteps
    exact evolveLoop_stop Ffun M0 T0 nsteps nsteps (initPoint M0 T0) [] (by simp)
  · obtain ⟨r2, rest2, heq, hlen, hlb, hub⟩ := default_run 1.227e12
    exact ⟨by rw [heq]; simpa using hlen, r2, rest2, heq, hlb, by linarith⟩

/-! ## Exporter format (C8) -/

/-- Rounding a mantissa to 8 decimal digits recovers the value to 8
significant digits: relative error at most `5e-9`. -/
lemma sciRound8_close (x : ℝ) : |sciRound8 x - x| ≤ 5e-9 * |x| := by
  by_cases hx : x = 0
  · subst hx
    simp [sciRound8]
  · unfold sciRound8
    rw [if_neg hx]
    set e : ℤ := ⌊Real.logb 10 |x|⌋ with hedef
    set s : ℝ := (10 : ℝ) ^ e with hsdef
    have hs_pos : 0 < s := zpow_pos (by norm_num) e
    have hs_le : s ≤ |x| := by
      have hlogb : (10 : ℝ) ^ (Real.logb 10 |x|) = |x| :=
        Real.rpow_logb (by norm_num) (by norm_num) (abs_pos.mpr hx)
      have h1 : ((10 : ℝ) ^ ((e : ℝ))) ≤ (10 : ℝ) ^ (Real.logb 10 |x|) :=
        Real.rpow_le_rpow_of_exponent_le (by norm_num) (Int.floor_le _)
      rw [Real.rpow_intCast] at h1
      rw [hsdef]
      linarith [h1, hlogb]
    set z : ℝ := x / s * 10 ^ 8 with hzdef
    have hxz : x = z / 10 ^ 8 * s := by
      rw [hzdef]
      field_simp
      ring
    have key : |((round z : ℤ) : ℝ) - z| ≤ 1 / 2 := by
      rw [abs_sub_comm]
      exact abs_sub_round z
    have hdiff : ((round z : ℤ) : ℝ) / 10 ^ 8 * s - x =
        (((round z : ℤ) : ℝ) - z) * (s / 10 ^ 8) := by
      rw [hxz]
      ring
    rw [hdiff, abs_mul, abs_of_pos (by positivity : (0:ℝ) < s / 10 ^ 8)]
    have h2 : |(((round z : ℤ) : ℝ) - z)| * (s / 10 ^ 8) ≤ (1 / 2) * (s / 10 ^ 8) :=
      mul_le_mul_of_nonneg_right key (by positivity)
    have h3 : (1 / 2 : ℝ) * (s / 10 ^ 8) ≤ 5e-9 * |x| := by nlinarith
    linarith

/-- C8.  Exporter format of `generate_trajectory`: one header row with the
five field names, one data row per trajectory sample (the five sequences have
equal length), each cell the value formatted in scientific notation with 8
digits after the decimal point, so re-parsing recovers every array value to 8
significant digits (relative error at most `5e-9`). -/
theorem C8_exporter_format (M0 T0 : ℝ) (nsteps : ℕ) :
    exportHeader = ["tau", "M_over_M0", "T_over_T0", "S_bits", "bits_emitted"] ∧
    (exportRows M0 T0 nsteps).length = (tauList M0 T0 nsteps).length ∧
    ((MnormList M0 T0 nsteps).length = (tauList M0 T0 nsteps).length ∧
      (TnormList M0 T0 nsteps).length = (tauList M0 T0 nsteps).length ∧
      (SbitsList M0 T0 nsteps).length = (tauList M0 T0 nsteps).length ∧
      (bitsEmittedList M0 T0 nsteps).length = (tauList M0 T0 nsteps).length) ∧
    (∀ i, i < (tauList M0 T0 nsteps).length →
      (exportRows M0 T0 nsteps).getD i [] =
        [sciRound8 ((tauList M0 T0 nsteps).getD i 0),
         sciRound8 ((MnormList M0 T0 nsteps).getD i 0),
         sciRound8 ((TnormList M0 T0 nsteps).getD i 0),
         sciRound8 ((SbitsList M0 T0 nsteps).getD i 0),
         sciRound8 ((bitsEmittedList M0 T0 nsteps).getD i 0)]) ∧
    (∀ x : ℝ, |sciRound8 x - x| ≤ 5e-9 * |x|) := by
  refine ⟨rfl, ?_, ?_, ?_, sciRound8_close⟩
  · unfold exportRows
    rw [List.length_map, List.length_range]
  · unfold MnormList TnormList SbitsList bitsEmittedList tauList
    simp
  · intro i hi
    unfold exportRows
    rw [List.getD_eq_getElem?_getD, List.getElem?_map, List.getElem?_range (by simpa using hi)]
    rfl

theorem C8_exporter_format_witness :
    |sciRound8 1 - 1| ≤ 5e-9 * |1| ∧
      (exportRows 1 1 0).getD 0 [] =
        [sciRound8 ((tauList 1 1 0).getD 0 0),
         sciRound8 ((MnormList 1 1 0).getD 0 0),
         sciRound8 ((TnormList 1 1 0).getD 0 0),
         sciRound8 ((SbitsList 1 1 0).getD 0 0),
         sciRound8 ((bitsEmittedList 1 1 0).getD 0 0)] :=
  ⟨(C8_exporter_format 1 1 0).2.2.2.2 1,
   (C8_exporter_format 1 1 0).2.2.2.1 0
     (by simp [tauList, trajHist, trajHistG, runRev, runRevG, evolveLoop_zero, initHist])⟩

end
